import Mathlib

/-!
log-to-cube: a shallow embedding of `log-to-cube.go`.

The development follows the Go source function by function.

* Go strings are Lean `String`s; `len(s)` is `String.utf8ByteSize`.
* A run-time panic (slice bounds, index out of range) is the `none` of an
  `Option` result.
* `cubeEntries` is a Go slice: a header `(array, offset, len, cap)` over a
  backing array that other headers may share.  The heap of backing arrays is
  explicit, because `partitionBatchesToCube` keeps slices of the buffer's
  array alive while the buffer itself is re-sliced to `[0:0]` and appended to.
* `watching` is never re-sliced or shared, so it is a plain list.
* The network (`sendBatchToCube`), the clock and the scheduler are inputs.
-/

/-! ## Library functions used by the source -/

namespace strings

/-- Splitting of a character sequence around every occurrence of `sep`. -/
def splitChars (sep : Char) : List Char → List (List Char)
  | [] => [[]]
  | c :: cs =>
    if c = sep then [] :: splitChars sep cs
    else
      match splitChars sep cs with
      | [] => [[c]]
      | p :: ps => (c :: p) :: ps

/-- Go `strings.Split(s, sep)` for a one-character separator: the substrings
between the separators, always at least one (`Split("", ".")` is `[""]`). -/
def Split (s : String) (sep : Char) : List String :=
  (splitChars sep s.data).map String.mk

/-- Go `strings.Join(elems, sep)`. -/
def Join : List String → String → String
  | [], _ => ""
  | [a], _ => a
  | a :: b :: rest, sep => a ++ sep ++ Join (b :: rest) sep

end strings

namespace strconv

/-- The two errors of Go `strconv`: `ErrSyntax` and `ErrRange`. -/
inductive NumError where
  | ErrSyntax
  | ErrRange
  deriving DecidableEq, Repr

/-- Largest `uint64`. -/
def maxUint64 : Nat := 2 ^ 64 - 1

/-- The digit loop of Go `strconv.ParseUint(s, 10, 64)`: a byte that is not a
decimal digit is a syntax error with value 0; an overflow of `n*10` or of
`n*10 + d` (computed modulo `2^64`) stops the loop at once with the largest
value and a range error. -/
def parseUintLoop : List Char → Nat → Nat × Option NumError
  | [], n => (n, none)
  | c :: cs, n =>
    if 48 ≤ c.toNat ∧ c.toNat ≤ 57 then
      if n ≥ maxUint64 / 10 + 1 then (maxUint64, some NumError.ErrRange)
      else
        let n10 := n * 10
        let n1 := (n10 + (c.toNat - 48)) % 2 ^ 64
        if n1 < n10 ∨ n1 > maxUint64 then (maxUint64, some NumError.ErrRange)
        else parseUintLoop cs n1
    else (0, some NumError.ErrSyntax)

/-- Go `strconv.ParseUint(s, 10, 64)`. -/
def ParseUint (s : List Char) : Nat × Option NumError :=
  match s with
  | [] => (0, some NumError.ErrSyntax)
  | _ => parseUintLoop s 0

/-- Conversion of the unsigned magnitude in Go `strconv.ParseInt(s, 10, 64)`:
a syntax error gives 0, a magnitude outside `int64` gives the nearest bound
with a range error. -/
def signed (neg : Bool) (r : Nat × Option NumError) : Int × Option NumError :=
  if r.2 = some NumError.ErrSyntax then (0, some NumError.ErrSyntax)
  else if neg = false ∧ r.1 ≥ 2 ^ 63 then ((2 : Int) ^ 63 - 1, some NumError.ErrRange)
  else if neg = true ∧ r.1 > 2 ^ 63 then (-(2 : Int) ^ 63, some NumError.ErrRange)
  else (if neg then -(r.1 : Int) else (r.1 : Int), none)

/-- Go `strconv.ParseInt(s, 10, 64)`: an optional sign, then `ParseUint`. -/
def ParseInt (s : List Char) : Int × Option NumError :=
  match s with
  | [] => (0, some NumError.ErrSyntax)
  | c :: cs =>
    if c = '+' then signed false (ParseUint cs)
    else if c = '-' then signed true (ParseUint cs)
    else signed false (ParseUint (c :: cs))

/-- Go `strconv.Atoi(s)` with a 64-bit `int`: the value and the error. -/
def Atoi (s : String) : Int × Option NumError :=
  ParseInt s.data

/-- The number a run of decimal digits denotes, most significant digit first.
This is the meaning of a numeral, stated apart from the parsing code. -/
def decimalValue (digits : List Char) : Nat :=
  Nat.ofDigits 10 (digits.reverse.map (fun c => c.toNat - 48))

/-- A non-empty run of the characters `0` to `9`. -/
def isNumeral (digits : List Char) : Prop :=
  digits ≠ [] ∧ ∀ c ∈ digits, 48 ≤ c.toNat ∧ c.toNat ≤ 57

instance (digits : List Char) : Decidable (isNumeral digits) := by
  unfold isNumeral; infer_instance

end strconv

/-! ## Data model -/

/-- The `map[string]string` returned by `castHost`, with its three keys. -/
structure HostRecord where
  subdomain : String
  domain : String
  full : String
  deriving DecidableEq, Repr

/-- The `interface{}` values a cast can return.  `net/url` and floating-point
parsing are outside the embedding: the results of `url.Parse(v)` and of
`strconv.ParseFloat(v, 64)` are kept as terms tagged with the parsed text. -/
inductive Value where
  | str (s : String)
  | int (i : Int)
  | host (r : HostRecord)
  | url (parsedFrom : String)
  | float (parsedFrom : String)
  deriving DecidableEq, Repr

/-- A cast function: `none` is a run-time panic. -/
abbrev CastFn := String → Option Value

/-- Go `xs[lo:hi]` on a sequence whose capacity is its length: a panic unless
`0 ≤ lo ≤ hi ≤ len(xs)`. -/
def goSlice {α : Type} (xs : List α) (lo hi : Int) : Option (List α) :=
  if 0 ≤ lo ∧ lo ≤ hi ∧ hi ≤ (xs.length : Int) then
    some ((xs.drop lo.toNat).take (hi.toNat - lo.toNat))
  else none

/-! ## Casts (`log-to-cube.go`, lines 56-96) -/

/-- Source: `castString`. -/
def castString : CastFn := fun v => some (Value.str v)

/-- Source: `castInteger`: `i, _ := strconv.Atoi(v); return i`. -/
def castInteger : CastFn := fun v => some (Value.int (strconv.Atoi v).1)

/-- Source: `castHost`. -/
def castHost : CastFn := fun v =>
  let parts := strings.Split v '.'
  let n : Int := parts.length
  match goSlice parts (n - 2) n, goSlice parts 0 (n - 2) with
  | some d, some s =>
    some (Value.host
      { subdomain := strings.Join s ".", domain := strings.Join d ".", full := v })
  | _, _ => none

/-- Source: `castUrl`. -/
def castUrl : CastFn := fun v => some (Value.url v)

/-- Source: `castFloat`. -/
def castFloat : CastFn := fun v => some (Value.float v)

/-- The table `casts` built by `init`; `none` is the nil entry of an absent
key. -/
def casts (name : String) : Option CastFn :=
  if name = "string" then some castString
  else if name = "integer" then some castInteger
  else if name = "host" then some castHost
  else if name = "url" then some castUrl
  else if name = "float" then some castFloat
  else none

/-- Go map read `m[key]` on a `map[string]string`: the zero value `""` for an
absent key. -/
def mapIndex (m : List (String × String)) (key : String) : String :=
  (m.lookup key).getD ""

/-- The type `Source`; the compiled pattern is represented by what the code
uses of it: `FindStringSubmatch` (field `regexp`) and `SubexpNames`. -/
structure Source where
  /-- The field `Type` of the source (a reserved word here). -/
  Type_ : String
  Cast : List (String × String)
  regexp : String → Option (List String)
  regexpNames : List String

/-- Source: `(*Source).cast`. -/
def Source.cast (source : Source) (key value : String) : Option Value :=
  let castName := mapIndex source.Cast key
  if castName = "" then some (Value.str value)
  else
    match casts castName with
    | none => some (Value.str value)
    | some f => f value

/-! ## Go slices over an explicit heap -/

/-- A Go slice header: the backing array it points into, the offset of its
first element in that array, its length and its capacity. -/
structure Slice where
  arr : Nat
  off : Nat
  len : Nat
  cap : Nat
  deriving DecidableEq, Repr

/-- The backing arrays allocated so far, by identifier. -/
abbrev Heap (α : Type) := List (List α)

/-- The array with identifier `a`. -/
def Heap.array {α : Type} (h : Heap α) (a : Nat) : List α :=
  h.getD a []

/-- The elements a slice header currently denotes. -/
def Slice.read {α : Type} (s : Slice) (h : Heap α) : List α :=
  ((h.array s.arr).drop s.off).take s.len

/-- Go `s[lo:hi]`: same array, a panic unless `lo ≤ hi ≤ cap(s)`. -/
def Slice.reslice (s : Slice) (lo hi : Nat) : Option Slice :=
  if lo ≤ hi ∧ hi ≤ s.cap then
    some { arr := s.arr, off := s.off + lo, len := hi - lo, cap := s.cap - lo }
  else none

/-- Overwriting the cells `pos, pos+1, ...` of an array with `vs`. -/
def writeAt {α : Type} (xs : List α) (pos : Nat) (vs : List α) : List α :=
  xs.take pos ++ vs ++ xs.drop (pos + vs.length)

/-- Go `append(s, vs...)`.  When the capacity suffices the values are written
into the backing array of `s`, right after its last element, and every other
header on that array sees them.  Otherwise a new array is allocated; its
capacity is at least the new length and otherwise up to the run time
(`growslice`), and its spare cells hold the zero value. -/
def goAppend {α : Type} [Inhabited α] (growslice : Nat → Nat → Nat)
    (h : Heap α) (s : Slice) (vs : List α) : Heap α × Slice :=
  let n := s.len + vs.length
  if n ≤ s.cap then
    (h.set s.arr (writeAt (h.array s.arr) (s.off + s.len) vs), { s with len := n })
  else
    let c := max n (growslice s.cap n)
    (h ++ [s.read h ++ vs ++ List.replicate (c - n) default],
      { arr := h.length, off := 0, len := n, cap := c })

/-- A header is well formed in a heap: its array exists and holds its whole
capacity. -/
def Slice.WF {α : Type} (s : Slice) (h : Heap α) : Prop :=
  s.arr < h.length ∧ s.len ≤ s.cap ∧ s.off + s.cap ≤ (h.array s.arr).length

instance {α : Type} (s : Slice) (h : Heap α) : Decidable (s.WF h) := by
  unfold Slice.WF; infer_instance

/-! ## Program state -/

/-- The type `CubeEntry`. -/
structure CubeEntry where
  /-- The field `Type` of the source (a reserved word here). -/
  Type_ : String
  Time : String
  Data : List (String × Value)
  deriving DecidableEq, Repr

instance : Inhabited CubeEntry := ⟨{ Type_ := "", Time := "", Data := [] }⟩

/-- The heap and the global `cubeEntries`. -/
structure Prog (α : Type) where
  heap : Heap α
  cubeEntries : Slice
  deriving DecidableEq, Repr

/-- The contents of the shared buffer. -/
def Prog.buffer {α : Type} (p : Prog α) : List α :=
  p.cubeEntries.read p.heap

/-- The state after `init`: `cubeEntries = make([]*CubeEntry, 0)`. -/
def Prog.init (α : Type) : Prog α :=
  { heap := [[]], cubeEntries := { arr := 0, off := 0, len := 0, cap := 0 } }

/-- The type `tail.Line`, as far as the source reads it. -/
structure Line where
  Text : String
  deriving DecidableEq, Repr

/-! ## `consume` (`log-to-cube.go`, lines 249-273) -/

/-- Go map write `d[k] = x`. -/
def mapAssign {β : Type} (d : List (String × β)) (k : String) (x : β) : List (String × β) :=
  match d with
  | [] => [(k, x)]
  | (k1, x1) :: rest => if k1 = k then (k, x) :: rest else (k1, x1) :: mapAssign rest k x

/-- The loop `for i, v := range source.regexpNames` of `consume`, from index
`i` on; `m[i]` out of range and a panicking cast are panics. -/
def consumeLoop (source : Source) (m : List String) :
    Nat → List String → List (String × Value) → Option (List (String × Value))
  | _, [], d => some d
  | i, v :: names, d =>
    if v ≠ "" then
      match m[i]? with
      | none => none
      | some mi =>
        match source.cast v mi with
        | none => none
        | some x => consumeLoop source m (i + 1) names (mapAssign d v x)
    else consumeLoop source m (i + 1) names d

/-- Source: `(*Source).consume`; `now` is `time.Now().Format(time.RFC3339)`. -/
def Source.consume (growslice : Nat → Nat → Nat) (source : Source) (now : String)
    (line : Line) (p : Prog CubeEntry) : Option (Prog CubeEntry) :=
  match source.regexp line.Text with
  | none => some p
  | some m =>
    match consumeLoop source m 0 source.regexpNames [] with
    | none => none
    | some d =>
      let v : CubeEntry := { Type_ := source.Type_, Time := now, Data := d }
      let r := goAppend growslice p.heap p.cubeEntries [v]
      some { heap := r.1, cubeEntries := r.2 }

/-! ## `partitionBatchesToCube` (`log-to-cube.go`, lines 301-361) -/

/-- The constant `concurrency`. -/
def concurrency : Nat := 5

/-- The constant `batchsize`. -/
def batchsize : Nat := 500

/-- Source: `int(math.Ceil(float64(n) / float64(size)))`.  The quotient of the
two floats is rounded correctly, so for `n < 2^53` and `size ≥ 1` its ceiling
is the exact one, computed here on naturals. -/
def partCount (n size : Nat) : Nat :=
  (n + size - 1) / size

/-- The loop `for i := 0; i < partCount; i += 1` that fills `parts`, from
index `i` on with `todo` iterations left. -/
def partLoop (ce : Slice) (size : Nat) : Nat → Nat → Option (List Slice)
  | _, 0 => some []
  | i, todo + 1 =>
    let start := i * size
    let stop := start + size
    match (if stop > ce.len then ce.reslice start ce.len else ce.reslice start stop) with
    | none => none
    | some part =>
      match partLoop ce size (i + 1) todo with
      | none => none
      | some rest => some (part :: rest)

/-- The locked section of `partitionBatchesToCube`: the early return on an
empty buffer, the slicing into `parts`, and `cubeEntries = cubeEntries[0:0]`.
The result is the batches and the state the dispatches start from. -/
def partitionStep {α : Type} (size : Nat) (p : Prog α) : Option (List Slice × Prog α) :=
  if p.cubeEntries.len = 0 then some ([], p)
  else
    match partLoop p.cubeEntries size 0 (partCount p.cubeEntries.len size),
        p.cubeEntries.reslice 0 0 with
    | some parts, some ce => some (parts, { p with cubeEntries := ce })
    | _, _ => none

/-- The failure branch of a dispatch:
`cubeEntries = append(cubeEntries, part...)`, the batch being read when the
append runs. -/
def retryBatch {α : Type} [Inhabited α] (growslice : Nat → Nat → Nat)
    (part : Slice) (p : Prog α) : Prog α :=
  let r := goAppend growslice p.heap p.cubeEntries (part.read p.heap)
  { heap := r.1, cubeEntries := r.2 }

/-- The effect on the buffer of the goroutine of batch `i` finishing;
`sendOk i` is the result of its `sendBatchToCube`. -/
def completeBatch {α : Type} [Inhabited α] (growslice : Nat → Nat → Nat)
    (parts : List Slice) (sendOk : Nat → Bool) (p : Prog α) (i : Nat) : Prog α :=
  match parts[i]? with
  | none => p
  | some part => if sendOk i then p else retryBatch growslice part p

/-- The dispatches of a round, finishing in the order `order`. -/
def dispatch {α : Type} [Inhabited α] (growslice : Nat → Nat → Nat)
    (parts : List Slice) (sendOk : Nat → Bool) (order : List Nat) (p : Prog α) : Prog α :=
  order.foldl (completeBatch growslice parts sendOk) p

/-- The orders in which the goroutines of a round of `n` batches can finish:
every batch finishes once, and batch `j` is only started once fewer than
`min concurrency n` earlier batches are in flight, so it cannot be among the
first `j - min concurrency n + 1` to finish. -/
def feasibleOrder (n : Nat) (order : List Nat) : Prop :=
  order.Perm (List.range n) ∧
    ∀ pos, pos < order.length → order.getD pos 0 < pos + min concurrency n

instance (n : Nat) (order : List Nat) : Decidable (feasibleOrder n order) := by
  unfold feasibleOrder; infer_instance

/-- Source: `partitionBatchesToCube(size)`, for one assignment of results to
the dispatches and one order of completion. -/
def partitionBatchesToCube {α : Type} [Inhabited α] (growslice : Nat → Nat → Nat)
    (size : Nat) (sendOk : Nat → Bool) (order : List Nat) (p : Prog α) : Option (Prog α) :=
  match partitionStep size p with
  | none => none
  | some (parts, p1) => some (dispatch growslice parts sendOk order p1)

/-! ## `watchPath` (`log-to-cube.go`, lines 163-220) -/

/-- The loop `for i := 0; i < len(watching); i += 1` at the head of
`watchPath`: whether some `watching[i]` equals `path`. -/
def isWatching : List String → String → Bool
  | [], _ => false
  | w :: ws, path => if w = path then true else isWatching ws path

/-- The head of `watchPath` (lines 164-170): the new value of `watching` and
whether the call goes on to start a Tailer (it returns at once otherwise). -/
def watchPathEntry (watching : List String) (path : String) : List String × Bool :=
  if isWatching watching path then (watching, false)
  else (watching ++ [path], true)

/-- The watch list and the paths for which a Tailer was started. -/
structure WatchState where
  watching : List String
  started : List String
  deriving DecidableEq, Repr

/-- One `watchPath(path)` call, as far as the watch list goes. -/
def WatchState.call (st : WatchState) (path : String) : WatchState :=
  let r := watchPathEntry st.watching path
  { watching := r.1, started := if r.2 then st.started ++ [path] else st.started }

/-- A sequence of `watchPath` calls, run one after another from the empty
watch list. -/
def watchPaths (paths : List String) : WatchState :=
  paths.foldl WatchState.call { watching := [], started := [] }

/-- Two's-complement wrap-around of an `int64` result. -/
def wrapInt64 (x : Int) : Int :=
  (x + 2 ^ 63) % 2 ^ 64 - 2 ^ 63

/-- The Tailer's variables: `seekInfo.Offset` (an `int64`) and `changed`. -/
structure TailerState where
  Offset : Int
  changed : Bool
  deriving DecidableEq, Repr

/-- One iteration of the loop `for { line := <-t.Lines ... }` of `watchPath`
on the Tailer's variables; `none` is a nil line. -/
def tailerStep (st : TailerState) (line : Option Line) : TailerState :=
  match line with
  | none =>
    if st.Offset ≠ 0 then { Offset := 0, changed := true } else st
  | some l =>
    { Offset := wrapInt64 (st.Offset + (l.Text.utf8ByteSize : Int)), changed := true }

/-- One iteration of the Tailer loop with its call of `consume`. -/
def watchPathStep (growslice : Nat → Nat → Nat) (source : Source) (now : String)
    (st : TailerState) (p : Prog CubeEntry) (line : Option Line) :
    TailerState × Option (Prog CubeEntry) :=
  match line with
  | none => (tailerStep st none, some p)
  | some l => (tailerStep st (some l), source.consume growslice now l p)

/-- The header that iteration `j` of the partition loop stores in `parts[j]`,
in closed form; the loop is shown to compute it. -/
def partAt (ce : Slice) (size j : Nat) : Slice :=
  { arr := ce.arr, off := ce.off + j * size, len := min size (ce.len - j * size),
    cap := ce.cap - j * size }

/-- The state of a round on the state `p` whose dispatches finish in index
order, once batches `0 .. k-1` have finished: the buffer header still points
into the array of `p`, it is no longer than the finished batches, the cells of
the batches still to finish are untouched, and the buffer holds the contents
the failed batches had in `p`. -/
def RoundInv {α : Type} (p : Prog α) (size : Nat) (sendOk : Nat → Bool) (k : Nat)
    (q : Prog α) : Prop :=
  q.heap.length = p.heap.length ∧
  q.cubeEntries.arr = p.cubeEntries.arr ∧
  q.cubeEntries.off = p.cubeEntries.off ∧
  q.cubeEntries.cap = p.cubeEntries.cap ∧
  q.cubeEntries.len ≤ k * size ∧
  (q.heap.array p.cubeEntries.arr).length = (p.heap.array p.cubeEntries.arr).length ∧
  (q.heap.array p.cubeEntries.arr).drop (p.cubeEntries.off + k * size)
    = (p.heap.array p.cubeEntries.arr).drop (p.cubeEntries.off + k * size) ∧
  q.buffer = ((List.range' 0 k).map
    (fun j => if sendOk j then [] else (p.buffer.drop (j * size)).take size)).flatten

/-! ## Concrete inputs -/

/-- A growth policy for `append`: doubling the capacity. -/
def growDouble (oldCap _needed : Nat) : Nat :=
  2 * oldCap

/-- The second case of `consumeTests`: pattern `(?P<one>.*?),(?P<two>.*)`
with casts `one: string, two: integer`; the match function is given on the
line of the test. -/
def helloSource : Source :=
  { Type_ := "hello"
    Cast := [("one", "string"), ("two", "integer")]
    regexp := fun s => if s = "Hello,2" then some ["Hello,2", "Hello", "2"] else none
    regexpNames := ["", "one", "two"] }

/-- A source whose pattern `(?P<a>.)(?P<a>.)` has two groups of one name; the
match function is given on the line `xy`. -/
def dupSource : Source :=
  { Type_ := "dup"
    Cast := []
    regexp := fun s => if s = "xy" then some ["xy", "x", "y"] else none
    regexpNames := ["", "a", "a"] }

/-- The first case of `consumeTests`: pattern `(?P<message>.*)`, which matches
every line and captures the whole of it; no casts. -/
def messageSource : Source :=
  { Type_ := "message"
    Cast := []
    regexp := fun s => some [s, s]
    regexpNames := ["", "message"] }

/-- The Event `messageSource` extracts from the line `text` at time `now`. -/
def messageEvent (now text : String) : CubeEntry :=
  { Type_ := "message", Time := now, Data := [("message", Value.str text)] }

/-- The state after `messageSource` consumed the lines `a` and `b` from the
initial state: two appends, each allocating a fresh array. -/
def twoEvents : Prog CubeEntry :=
  { heap := [[], [messageEvent "t1" "a"], [messageEvent "t1" "a", messageEvent "t2" "b"]]
    cubeEntries := { arr := 2, off := 0, len := 2, cap := 2 } }

/-- A buffer of six events, numbered, in an array of capacity eight. -/
def sixEvents : Prog Nat :=
  { heap := [[1, 2, 3, 4, 5, 6, 0, 0]]
    cubeEntries := { arr := 0, off := 0, len := 6, cap := 8 } }

/-! ## Casts -/

theorem goSlice_suffix {α : Type} (pre : List α) (a b : α) :
    goSlice (pre ++ [a, b]) (((pre ++ [a, b]).length : Int) - 2) ((pre ++ [a, b]).length : Int)
      = some [a, b] := by
  have h1 : ((pre ++ [a, b]).length : Int) - 2 = (pre.length : Int) := by
    simp [List.length_append]
  have h2 : ((pre ++ [a, b]).length : Int) = (pre.length : Int) + 2 := by
    simp [List.length_append]
  rw [h1]
  unfold goSlice
  rw [if_pos ⟨by omega, by omega, by omega⟩]
  have h3 : ((pre ++ [a, b]).length : Int).toNat - (pre.length : Int).toNat = 2 := by omega
  rw [h3]
  simp

theorem goSlice_prefix {α : Type} (pre : List α) (a b : α) :
    goSlice (pre ++ [a, b]) 0 (((pre ++ [a, b]).length : Int) - 2) = some pre := by
  have h1 : ((pre ++ [a, b]).length : Int) - 2 = (pre.length : Int) := by
    simp [List.length_append]
  rw [h1]
  unfold goSlice
  rw [if_pos ⟨by omega, by omega, by simp⟩]
  simp

theorem exists_last_two {α : Type} (xs : List α) (h : 2 ≤ xs.length) :
    ∃ pre a b, xs = pre ++ [a, b] := by
  induction xs with
  | nil => simp at h
  | cons x rest ih =>
    match rest, ih with
    | [], _ => simp at h
    | [y], _ => exact ⟨[], x, y, rfl⟩
    | y :: z :: more, ih =>
      obtain ⟨pre, a, b, hp⟩ := ih (by simp)
      exact ⟨x :: pre, a, b, by rw [hp]; rfl⟩

/-- C4: on a hostname with at least two dot-separated labels `castHost`
returns the record whose `full` is the input, whose `domain` is the last two
labels joined by a dot and whose `subdomain` is the labels before them joined
by dots (the empty string when there are exactly two labels). -/
theorem castHost_dotted (v : String) (h : 2 ≤ (strings.Split v '.').length) :
    ∃ pre a b, strings.Split v '.' = pre ++ [a, b] ∧
      castHost v = some (Value.host
        { subdomain := strings.Join pre ".", domain := a ++ "." ++ b, full := v }) ∧
      ((strings.Split v '.').length = 2 → strings.Join pre "." = "") := by
  obtain ⟨pre, a, b, hp⟩ := exists_last_two _ h
  refine ⟨pre, a, b, hp, ?_, ?_⟩
  · unfold castHost
    simp only [hp, goSlice_suffix, goSlice_prefix]
    rfl
  · intro h2
    rw [hp] at h2
    have : pre = [] := by
      cases pre with
      | nil => rfl
      | cons x xs => simp at h2
    rw [this]; rfl

/-- C4, at `abc.def.google.com`, the third `host` case of `castTests`. -/
theorem castHost_dotted_witness :
    2 ≤ (strings.Split "abc.def.google.com" '.').length ∧
      ∃ pre a b, strings.Split "abc.def.google.com" '.' = pre ++ [a, b] ∧
        castHost "abc.def.google.com" = some (Value.host
          { subdomain := strings.Join pre ".", domain := a ++ "." ++ b,
            full := "abc.def.google.com" }) ∧
        ((strings.Split "abc.def.google.com" '.').length = 2 → strings.Join pre "." = "") :=
  ⟨by decide, castHost_dotted "abc.def.google.com" (by decide)⟩

/-- C6: the host cast on a string with a single label, such as a host name
without a dot or the empty string, panics on `parts[len(parts)-2:]` and
returns no record. -/
theorem castHost_single_label_panics :
    (strings.Split "localhost" '.').length < 3 ∧ castHost "localhost" = none ∧
      (strings.Split "" '.').length < 3 ∧ castHost "" = none := by decide

/-- C5, as stated, fails: on a numeral above the `int64` range `Atoi` reports
an error and `castInteger` is the largest `int64`, not 0. -/
theorem castInteger_range_error :
    (strconv.Atoi "9223372036854775808").2 = some strconv.NumError.ErrRange ∧
      castInteger "9223372036854775808" = some (Value.int 9223372036854775807) ∧
      castInteger "9223372036854775808" ≠ some (Value.int 0) := by decide

theorem parseUintLoop_cases (cs : List Char) (n : Nat) :
    ((strconv.parseUintLoop cs n).2 = some strconv.NumError.ErrSyntax →
        (strconv.parseUintLoop cs n).1 = 0) ∧
      ((strconv.parseUintLoop cs n).2 = some strconv.NumError.ErrRange →
        (strconv.parseUintLoop cs n).1 = strconv.maxUint64) := by
  induction cs generalizing n with
  | nil => simp [strconv.parseUintLoop]
  | cons c cs ih =>
    unfold strconv.parseUintLoop
    dsimp only
    split_ifs <;> first | exact ih _ | simp

theorem signed_cases (neg : Bool) (r : Nat × Option strconv.NumError) :
    ((strconv.signed neg r).2 = some strconv.NumError.ErrSyntax → (strconv.signed neg r).1 = 0) ∧
      ((strconv.signed neg r).2 = some strconv.NumError.ErrRange →
        (strconv.signed neg r).1 = 2 ^ 63 - 1 ∨ (strconv.signed neg r).1 = -2 ^ 63) := by
  unfold strconv.signed
  split_ifs <;> simp

theorem Atoi_cases (v : String) :
    ((strconv.Atoi v).2 = some strconv.NumError.ErrSyntax → (strconv.Atoi v).1 = 0) ∧
      ((strconv.Atoi v).2 = some strconv.NumError.ErrRange →
        (strconv.Atoi v).1 = 2 ^ 63 - 1 ∨ (strconv.Atoi v).1 = -2 ^ 63) := by
  unfold strconv.Atoi strconv.ParseInt
  split
  · simp
  · split_ifs <;> exact signed_cases _ _

theorem foldl_eq_decimalValue (cs : List Char) :
    cs.foldl (fun a c => a * 10 + (c.toNat - 48)) 0 = strconv.decimalValue cs := by
  induction cs using List.reverseRecOn with
  | nil => rfl
  | append_singleton cs c ih =>
    rw [List.foldl_append, List.foldl_cons, List.foldl_nil, ih]
    simp only [strconv.decimalValue, List.reverse_append, List.reverse_cons, List.reverse_nil,
      List.nil_append, List.singleton_append, List.map_cons, Nat.ofDigits_cons]
    omega

theorem foldl_step_ge (cs : List Char) (n : Nat) :
    n ≤ cs.foldl (fun a c => a * 10 + (c.toNat - 48)) n := by
  induction cs generalizing n with
  | nil => exact le_refl _
  | cons c cs ih =>
    simp only [List.foldl_cons]
    exact le_trans (by omega) (ih _)

theorem parseUintLoop_ok (cs : List Char) :
    ∀ (n r : Nat), strconv.parseUintLoop cs n = (r, none) →
      (∀ c ∈ cs, 48 ≤ c.toNat ∧ c.toNat ≤ 57) ∧
        r = cs.foldl (fun a c => a * 10 + (c.toNat - 48)) n := by
  induction cs with
  | nil =>
    intro n r h
    simp only [strconv.parseUintLoop, Prod.mk.injEq, and_true] at h
    exact ⟨by simp, by simpa using h.symm⟩
  | cons c cs ih =>
    intro n r h
    have hmax : strconv.maxUint64 = 18446744073709551615 := by decide
    unfold strconv.parseUintLoop at h
    dsimp only at h
    split_ifs at h with h1 h2 h3
    · simp at h
    · simp at h
    · obtain ⟨hd, hr⟩ := ih _ _ h
      have hnowrap : (n * 10 + (c.toNat - 48)) % 2 ^ 64 = n * 10 + (c.toNat - 48) := by
        rw [hmax] at h2
        omega
      rw [hnowrap] at hr
      refine ⟨?_, by simpa using hr⟩
      intro x hx
      rcases List.mem_cons.1 hx with hx | hx
      · rw [hx]; exact h1
      · exact hd x hx
    · simp at h

theorem parseUintLoop_of_digits (cs : List Char)
    (hd : ∀ c ∈ cs, 48 ≤ c.toNat ∧ c.toNat ≤ 57) (n : Nat)
    (hfit : cs.foldl (fun a c => a * 10 + (c.toNat - 48)) n ≤ strconv.maxUint64) :
    strconv.parseUintLoop cs n = (cs.foldl (fun a c => a * 10 + (c.toNat - 48)) n, none) := by
  induction cs generalizing n with
  | nil => rfl
  | cons c cs ih =>
    have hc := hd c (List.mem_cons_self _ _)
    have hge := foldl_step_ge cs (n * 10 + (c.toNat - 48))
    simp only [List.foldl_cons] at hfit hge ⊢
    have hmax : strconv.maxUint64 = 18446744073709551615 := by decide
    unfold strconv.parseUintLoop
    dsimp only
    rw [if_pos hc, if_neg (by rw [hmax]; omega)]
    have hmod : (n * 10 + (c.toNat - 48)) % 2 ^ 64 = n * 10 + (c.toNat - 48) :=
      Nat.mod_eq_of_lt (by omega)
    rw [hmod, if_neg (by rw [hmax]; omega)]
    exact ih (fun x hx => hd x (List.mem_cons_of_mem _ hx)) _ hfit

theorem ParseUint_ok (cs : List Char) (r : Nat) (h : strconv.ParseUint cs = (r, none)) :
    strconv.isNumeral cs ∧ r = strconv.decimalValue cs := by
  cases cs with
  | nil => simp [strconv.ParseUint] at h
  | cons c cs =>
    have := parseUintLoop_ok (c :: cs) 0 r (by simpa [strconv.ParseUint] using h)
    exact ⟨⟨by simp, this.1⟩, by rw [this.2, foldl_eq_decimalValue]⟩

theorem ParseUint_of_numeral (cs : List Char) (h : strconv.isNumeral cs)
    (hfit : strconv.decimalValue cs ≤ strconv.maxUint64) :
    strconv.ParseUint cs = (strconv.decimalValue cs, none) := by
  obtain ⟨hne, hd⟩ := h
  cases cs with
  | nil => exact absurd rfl hne
  | cons c cs =>
    have := parseUintLoop_of_digits (c :: cs) hd 0 (by rw [foldl_eq_decimalValue]; exact hfit)
    rw [foldl_eq_decimalValue] at this
    simpa [strconv.ParseUint] using this

theorem ParseUint_cases (cs : List Char) :
    (strconv.ParseUint cs).2 = some strconv.NumError.ErrRange →
      (strconv.ParseUint cs).1 = strconv.maxUint64 := by
  cases cs with
  | nil => simp [strconv.ParseUint]
  | cons c cs => exact (parseUintLoop_cases (c :: cs) 0).2

theorem digit_ne_sign (c : Char) (h : 48 ≤ c.toNat ∧ c.toNat ≤ 57) : c ≠ '+' ∧ c ≠ '-' := by
  constructor <;> intro e <;> subst e <;> revert h <;> decide

/-- C5, amended: `castInteger v` is the value `Atoi` returns, whatever the
error, and no error is surfaced.  It is 0 when `Atoi` reports a syntax error.
When `Atoi` reports a range error it is the `int64` bound on the side of the
numeral's sign: `-2^63` for a numeral that starts with `-`, `2^63-1`
otherwise.  When `Atoi` reports no error, `v` is a non-empty run of decimal
digits, possibly after one `+` or `-`, and `castInteger v` is the number these
digits denote, negated after `-`; and every such numeral within the `int64`
range is parsed without error. -/
theorem castInteger_spec (v : String) :
    castInteger v = some (Value.int (strconv.Atoi v).1) ∧
    ((strconv.Atoi v).2 = some strconv.NumError.ErrSyntax →
      castInteger v = some (Value.int 0)) ∧
    ((strconv.Atoi v).2 = some strconv.NumError.ErrRange →
      castInteger v
        = some (Value.int (if v.data.head? = some '-' then -2 ^ 63 else 2 ^ 63 - 1))) ∧
    ((strconv.Atoi v).2 = none →
      ∃ digits, strconv.isNumeral digits ∧
        (((v.data = digits ∨ v.data = '+' :: digits) ∧
            castInteger v = some (Value.int (strconv.decimalValue digits))) ∨
          (v.data = '-' :: digits ∧
            castInteger v = some (Value.int (-(strconv.decimalValue digits : Int)))))) ∧
    (∀ digits, strconv.isNumeral digits → (v.data = digits ∨ v.data = '+' :: digits) →
      strconv.decimalValue digits < 2 ^ 63 →
      (strconv.Atoi v).2 = none ∧ castInteger v = some (Value.int (strconv.decimalValue digits))) ∧
    (∀ digits, strconv.isNumeral digits → v.data = '-' :: digits → strconv.decimalValue digits ≤ 2 ^ 63 →
      (strconv.Atoi v).2 = none ∧
        castInteger v = some (Value.int (-(strconv.decimalValue digits : Int)))) := by
  have hmax : strconv.maxUint64 = 18446744073709551615 := by decide
  -- `signed` on a range error: the bound on the side of the sign
  have hrange : ∀ (neg : Bool) (r : Nat × Option strconv.NumError),
      (strconv.signed neg r).2 = some strconv.NumError.ErrRange →
      (strconv.signed neg r).1 = (if neg then -2 ^ 63 else 2 ^ 63 - 1) := by
    intro neg r h
    unfold strconv.signed at h ⊢
    split_ifs at h ⊢ with h1 h2 h3 <;> simp_all
  -- `signed` after `ParseUint` without error: a numeral and its signed value
  have hok : ∀ (neg : Bool) (cs : List Char),
      (strconv.signed neg (strconv.ParseUint cs)).2 = none →
      strconv.isNumeral cs ∧
        (strconv.signed neg (strconv.ParseUint cs)).1
          = (if neg then -(strconv.decimalValue cs : Int)
              else (strconv.decimalValue cs : Int)) := by
    intro neg cs h
    have hr := ParseUint_cases cs
    have hpu := ParseUint_ok cs (strconv.ParseUint cs).1
    generalize strconv.ParseUint cs = r at *
    obtain ⟨r1, r2⟩ := r
    unfold strconv.signed at h ⊢
    dsimp only at h hr hpu ⊢
    split_ifs at h ⊢ with h1 h2 h3 <;> try (simp at h; done)
    all_goals
      have hr2 : r2 = none := by
        cases r2 with
        | none => rfl
        | some e =>
          cases e with
          | ErrSyntax => exact absurd rfl h1
          | ErrRange =>
            have := hr rfl
            rw [hmax] at this
            subst this
            cases neg <;> simp at h2 h3
      subst hr2
      obtain ⟨hn, hv⟩ := hpu rfl
      subst hv
      exact ⟨hn, rfl⟩
  -- `signed` on a numeral within range
  have hpos : ∀ digits, strconv.isNumeral digits → strconv.decimalValue digits < 2 ^ 63 →
      strconv.signed false (strconv.ParseUint digits)
        = ((strconv.decimalValue digits : Int), none) := by
    intro digits hnum hfit
    rw [ParseUint_of_numeral digits hnum (by rw [hmax]; omega)]
    unfold strconv.signed
    simp only [if_neg (show ¬ (none : Option strconv.NumError)
      = some strconv.NumError.ErrSyntax by simp)]
    rw [if_neg (by simp only [true_and, not_le]; omega)]
    simp
  have hneg : ∀ digits, strconv.isNumeral digits → strconv.decimalValue digits ≤ 2 ^ 63 →
      strconv.signed true (strconv.ParseUint digits)
        = (-(strconv.decimalValue digits : Int), none) := by
    intro digits hnum hfit
    rw [ParseUint_of_numeral digits hnum (by rw [hmax]; omega)]
    unfold strconv.signed
    simp only [if_neg (show ¬ (none : Option strconv.NumError)
      = some strconv.NumError.ErrSyntax by simp)]
    rw [if_neg (by simp), if_neg (by simp only [true_and, not_lt]; omega)]
    simp
  refine ⟨rfl, ?_, ?_, ?_, ?_, ?_⟩
  · intro h
    simp [castInteger, (Atoi_cases v).1 h]
  · intro h
    have hval : (strconv.Atoi v).1
        = (if v.data.head? = some '-' then -2 ^ 63 else 2 ^ 63 - 1) := by
      unfold strconv.Atoi strconv.ParseInt at h ⊢
      cases hv : v.data with
      | nil => rw [hv] at h; simp at h
      | cons c cs =>
        rw [hv] at h
        dsimp only at h ⊢
        by_cases h1 : c = '+'
        · subst h1
          rw [if_pos rfl] at h ⊢
          rw [hrange _ _ h]
          simp
        · by_cases h2 : c = '-'
          · subst h2
            rw [if_neg h1, if_pos rfl] at h ⊢
            rw [hrange _ _ h]
            simp
          · rw [if_neg h1, if_neg h2] at h ⊢
            rw [hrange _ _ h]
            simp [h2]
    simp only [castInteger, hval]
  · intro h
    unfold castInteger
    unfold strconv.Atoi strconv.ParseInt at h ⊢
    cases hv : v.data with
    | nil => rw [hv] at h; simp at h
    | cons c cs =>
      rw [hv] at h
      dsimp only at h ⊢
      by_cases h1 : c = '+'
      · subst h1
        rw [if_pos rfl] at h ⊢
        obtain ⟨hn, hval⟩ := hok false cs h
        exact ⟨cs, hn, Or.inl ⟨Or.inr rfl, by rw [hval]; simp⟩⟩
      · by_cases h2 : c = '-'
        · subst h2
          rw [if_neg h1, if_pos rfl] at h ⊢
          obtain ⟨hn, hval⟩ := hok true cs h
          exact ⟨cs, hn, Or.inr ⟨rfl, by rw [hval]; simp⟩⟩
        · rw [if_neg h1, if_neg h2] at h ⊢
          obtain ⟨hn, hval⟩ := hok false (c :: cs) h
          exact ⟨c :: cs, hn, Or.inl ⟨Or.inl rfl, by rw [hval]; simp⟩⟩
  · intro digits hnum hv hfit
    have hatoi : strconv.Atoi v = ((strconv.decimalValue digits : Int), none) := by
      rcases hv with hv | hv
      · have hnum2 := hnum
        obtain ⟨hne, hd⟩ := hnum2
        cases digits with
        | nil => exact absurd rfl hne
        | cons c cs =>
          obtain ⟨h1, h2⟩ := digit_ne_sign c (hd c (List.mem_cons_self _ _))
          unfold strconv.Atoi strconv.ParseInt
          rw [hv]
          simp only [h1, h2, if_false]
          exact hpos _ hnum hfit
      · unfold strconv.Atoi strconv.ParseInt
        rw [hv]
        simp only [if_true]
        exact hpos _ hnum hfit
    exact ⟨by rw [hatoi], by simp [castInteger, hatoi]⟩
  · intro digits hnum hv hfit
    have hatoi : strconv.Atoi v = (-(strconv.decimalValue digits : Int), none) := by
      unfold strconv.Atoi strconv.ParseInt
      rw [hv]
      simp only [show ¬ ('-' = '+') by decide, if_false, if_true]
      exact hneg _ hnum hfit
    exact ⟨by rw [hatoi], by simp [castInteger, hatoi]⟩

/-! ## `cast` -/

theorem casts_eq_none (c : String)
    (h : c ∉ ["string", "integer", "host", "url", "float"]) : casts c = none := by
  simp only [List.mem_cons, List.mem_singleton, not_or, List.mem_nil_iff, or_false] at h
  obtain ⟨h1, h2, h3, h4, h5⟩ := h
  simp [casts, h1, h2, h3, h4, h5]

theorem casts_isSome (c : String)
    (h : c ∈ ["string", "integer", "host", "url", "float"]) : ∃ f, casts c = some f := by
  simp only [List.mem_cons, List.mem_singleton, List.mem_nil_iff, or_false] at h
  rcases h with h | h | h | h | h <;> subst h <;> simp [casts]

/-- C7: `source.cast(key, value)` is `value` itself when the cast mapping has
no entry for `key`, maps it to the empty string, or maps it to a name that is
not one of `string`, `integer`, `host`, `url`, `float`; when it maps `key` to
one of these names it is the function registered under that name applied to
`value`, and the function registered under `string` is the identity. -/
theorem Source_cast_spec (source : Source) (key value : String) :
    (source.Cast.lookup key = none → source.cast key value = some (Value.str value)) ∧
    (source.Cast.lookup key = some "" → source.cast key value = some (Value.str value)) ∧
    (∀ c, source.Cast.lookup key = some c →
        c ∉ ["string", "integer", "host", "url", "float"] →
        source.cast key value = some (Value.str value)) ∧
    (∀ c, source.Cast.lookup key = some c →
        c ∈ ["string", "integer", "host", "url", "float"] →
        ∃ f, casts c = some f ∧ source.cast key value = f value) ∧
    casts "string" = some castString ∧ casts "integer" = some castInteger ∧
    casts "host" = some castHost ∧ casts "url" = some castUrl ∧
    casts "float" = some castFloat ∧
    (source.Cast.lookup key = some "string" → source.cast key value = some (Value.str value)) := by
  refine ⟨?_, ?_, ?_, ?_, rfl, rfl, rfl, rfl, rfl, ?_⟩
  · intro h
    simp [Source.cast, mapIndex, h]
  · intro h
    simp [Source.cast, mapIndex, h]
  · intro c h hc
    simp [Source.cast, mapIndex, h, casts_eq_none c hc]
  · intro c h hc
    obtain ⟨f, hf⟩ := casts_isSome c hc
    refine ⟨f, hf, ?_⟩
    have hne : c ≠ "" := by
      intro h0
      subst h0
      revert hc
      decide
    simp [Source.cast, mapIndex, h, hf, hne]
  · intro h
    simp [Source.cast, mapIndex, h, casts, castString]

/-! ## `watchPath` -/

theorem isWatching_iff (ws : List String) (path : String) :
    isWatching ws path = true ↔ path ∈ ws := by
  induction ws with
  | nil => simp [isWatching]
  | cons w ws ih =>
    unfold isWatching
    by_cases h : w = path
    · simp [h]
    · have h2 : ¬ path = w := fun e => h e.symm
      simp [h, h2, ih]

theorem watchPathEntry_mem (ws : List String) (path : String) (h : path ∈ ws) :
    watchPathEntry ws path = (ws, false) := by
  simp [watchPathEntry, (isWatching_iff ws path).2 h]

theorem watchPathEntry_not_mem (ws : List String) (path : String) (h : path ∉ ws) :
    watchPathEntry ws path = (ws ++ [path], true) := by
  have : isWatching ws path = false := by
    cases hb : isWatching ws path with
    | false => rfl
    | true => exact absurd ((isWatching_iff ws path).1 hb) h
  simp [watchPathEntry, this]

theorem WatchState_call_inv (st : WatchState) (path : String)
    (h : st.watching.Nodup ∧ st.started = st.watching) :
    (st.call path).watching.Nodup ∧ (st.call path).started = (st.call path).watching := by
  obtain ⟨hn, he⟩ := h
  by_cases hm : path ∈ st.watching
  · simp [WatchState.call, watchPathEntry_mem _ _ hm, hn, he]
  · simp only [WatchState.call, watchPathEntry_not_mem _ _ hm, if_true, he, and_true]
    exact List.Nodup.append hn (List.nodup_singleton path) (by simpa using hm)

theorem foldl_call_inv (paths : List String) (st : WatchState)
    (h : st.watching.Nodup ∧ st.started = st.watching) :
    (paths.foldl WatchState.call st).watching.Nodup ∧
      (paths.foldl WatchState.call st).started = (paths.foldl WatchState.call st).watching := by
  induction paths generalizing st with
  | nil => exact h
  | cons p ps ih => exact ih _ (WatchState_call_inv st p h)

/-- C8: after any sequence of `watchPath` calls run one after another from the
empty watch list, no path is in the watch list twice and the Tailers started
are those of the watch list, one per path; a further call on a watched path
starts no Tailer and leaves the list unchanged, and a call on a new path
appends it exactly once and starts its Tailer. -/
theorem watchPath_no_duplicates (paths : List String) (path : String) :
    (watchPaths paths).watching.Nodup ∧
    (watchPaths paths).started = (watchPaths paths).watching ∧
    (∀ q, (watchPaths paths).started.count q ≤ 1) ∧
    (path ∈ (watchPaths paths).watching →
      watchPathEntry (watchPaths paths).watching path = ((watchPaths paths).watching, false) ∧
      (watchPaths paths).call path = watchPaths paths) ∧
    (path ∉ (watchPaths paths).watching →
      watchPathEntry (watchPaths paths).watching path
        = ((watchPaths paths).watching ++ [path], true) ∧
      ((watchPaths paths).call path).watching.count path = 1 ∧
      ((watchPaths paths).call path).started = (watchPaths paths).started ++ [path]) := by
  have hinv := foldl_call_inv paths { watching := [], started := [] } ⟨List.nodup_nil, rfl⟩
  change (watchPaths paths).watching.Nodup ∧
    (watchPaths paths).started = (watchPaths paths).watching at hinv
  obtain ⟨hn, he⟩ := hinv
  refine ⟨hn, he, ?_, ?_, ?_⟩
  · intro q
    rw [he]
    exact List.nodup_iff_count_le_one.1 hn q
  · intro hm
    refine ⟨watchPathEntry_mem _ _ hm, ?_⟩
    simp [WatchState.call, watchPathEntry_mem _ _ hm]
  · intro hm
    refine ⟨watchPathEntry_not_mem _ _ hm, ?_, ?_⟩
    · simp [WatchState.call, watchPathEntry_not_mem _ _ hm, List.count_eq_zero_of_not_mem hm]
    · simp [WatchState.call, watchPathEntry_not_mem _ _ hm]

/-! ## The Tailer loop -/

theorem watchPathStep_fst (g : Nat → Nat → Nat) (source : Source) (now : String)
    (st : TailerState) (p : Prog CubeEntry) (line : Option Line) :
    (watchPathStep g source now st p line).1 = tailerStep st line := by
  cases line <;> rfl

theorem tailerStep_cases (st : TailerState) (line : Option Line)
    (hhi : ∀ l, line = some l → -2 ^ 63 ≤ st.Offset ∧
      st.Offset + (l.Text.utf8ByteSize : Int) < 2 ^ 63) :
    (∀ l, line = some l →
      (tailerStep st line).Offset = st.Offset + (l.Text.utf8ByteSize : Int) ∧
      (tailerStep st line).changed = true ∧
      st.Offset ≤ (tailerStep st line).Offset ∧
      (st.Offset < (tailerStep st line).Offset ↔ 0 < l.Text.utf8ByteSize)) ∧
    (line = none → st.Offset ≠ 0 →
      (tailerStep st line).Offset = 0 ∧ (tailerStep st line).changed = true) ∧
    (line = none → st.Offset = 0 → tailerStep st line = st) ∧
    ((tailerStep st line).Offset < st.Offset → line = none ∧ (tailerStep st line).Offset = 0) := by
  have key : ∀ l, line = some l →
      (tailerStep st line).Offset = st.Offset + (l.Text.utf8ByteSize : Int) := by
    intro l hl
    have h := hhi l hl
    subst hl
    simp only [tailerStep, wrapInt64]
    omega
  refine ⟨?_, ?_, ?_, ?_⟩
  · intro l hl
    refine ⟨key l hl, ?_, ?_, ?_⟩
    · subst hl; rfl
    · rw [key l hl]; omega
    · rw [key l hl]; omega
  · intro hl h0
    subst hl
    simp [tailerStep, h0]
  · intro hl h0
    subst hl
    simp [tailerStep, h0]
  · intro hlt
    cases line with
    | none =>
      refine ⟨rfl, ?_⟩
      by_cases h0 : st.Offset = 0
      · simp [tailerStep, h0]
      · simp [tailerStep, h0]
    | some l =>
      rw [key l rfl] at hlt
      omega

/-- C10, as stated, fails: a received line whose text is empty leaves the
offset where it was, so the offset is not strictly greater after the step. -/
theorem watchPathStep_empty_line_not_strict :
    ¬ ((watchPathStep growDouble messageSource "now" { Offset := 7, changed := false }
        (Prog.init CubeEntry) (some { Text := "" })).1.Offset > 7) ∧
      (watchPathStep growDouble messageSource "now" { Offset := 7, changed := false }
        (Prog.init CubeEntry) (some { Text := "" })).1.Offset = 7 := by
  decide

/-- C10, amended: in an iteration of the Tailer loop of `watchPath`, for every
received line that does not take the offset out of the `int64` range, the
offset after the step is the offset before plus the byte length of the line,
hence not lower and strictly greater exactly when the text is non-empty, and
the state is marked dirty; a nil line sets a nonzero offset to 0 and marks the
state dirty, and leaves a zero offset alone; so a step that lowers the offset
is the reset and sets the offset to 0. -/
theorem watchPathStep_offset_spec (g : Nat → Nat → Nat) (source : Source) (now : String)
    (st : TailerState) (p : Prog CubeEntry) (line : Option Line)
    (hhi : ∀ l, line = some l → -2 ^ 63 ≤ st.Offset ∧
      st.Offset + (l.Text.utf8ByteSize : Int) < 2 ^ 63) :
    (∀ l, line = some l →
      (watchPathStep g source now st p line).1.Offset
        = st.Offset + (l.Text.utf8ByteSize : Int) ∧
      (watchPathStep g source now st p line).1.changed = true ∧
      st.Offset ≤ (watchPathStep g source now st p line).1.Offset ∧
      (st.Offset < (watchPathStep g source now st p line).1.Offset
        ↔ 0 < l.Text.utf8ByteSize)) ∧
    (line = none → st.Offset ≠ 0 →
      (watchPathStep g source now st p line).1.Offset = 0 ∧
      (watchPathStep g source now st p line).1.changed = true) ∧
    (line = none → st.Offset = 0 → (watchPathStep g source now st p line).1 = st) ∧
    ((watchPathStep g source now st p line).1.Offset < st.Offset →
      line = none ∧ (watchPathStep g source now st p line).1.Offset = 0) := by
  rw [watchPathStep_fst]
  exact tailerStep_cases st line hhi

/-- C10, amended, at the offset 10 and the line `Hello`. -/
theorem watchPathStep_offset_spec_witness :
    (watchPathStep growDouble messageSource "now" { Offset := 10, changed := false }
        (Prog.init CubeEntry) (some { Text := "Hello" })).1.Offset = 15 ∧
      (watchPathStep growDouble messageSource "now" { Offset := 10, changed := false }
        (Prog.init CubeEntry) (some { Text := "Hello" })).1.changed = true :=
  ⟨(((watchPathStep_offset_spec growDouble messageSource "now"
      { Offset := 10, changed := false } (Prog.init CubeEntry) (some { Text := "Hello" })
      (by intro l hl; cases hl; decide)).1 { Text := "Hello" } rfl).1).trans (by decide),
    ((watchPathStep_offset_spec growDouble messageSource "now"
      { Offset := 10, changed := false } (Prog.init CubeEntry) (some { Text := "Hello" })
      (by intro l hl; cases hl; decide)).1 { Text := "Hello" } rfl).2.1⟩

/-! ## Slices -/

theorem Heap.array_set_same {α : Type} (h : Heap α) (a : Nat) (x : List α) (ha : a < h.length) :
    Heap.array (h.set a x) a = x := by
  simp [Heap.array, List.getD, ha]

theorem Heap.array_append_new {α : Type} (h : Heap α) (x : List α) :
    Heap.array (h ++ [x]) h.length = x := by
  simp [Heap.array, List.getD]

theorem Slice.read_length {α : Type} (s : Slice) (h : Heap α) (hwf : s.WF h) :
    (s.read h).length = s.len := by
  obtain ⟨_, h2, h3⟩ := hwf
  simp only [Slice.read, List.length_take, List.length_drop]
  omega

theorem writeAt_length {α : Type} (xs : List α) (pos : Nat) (vs : List α)
    (h : pos + vs.length ≤ xs.length) : (writeAt xs pos vs).length = xs.length := by
  simp only [writeAt, List.length_append, List.length_take, List.length_drop]
  omega

/-- Reading a window that ends where the written cells end. -/
theorem writeAt_read {α : Type} (xs : List α) (off len : Nat) (vs : List α)
    (h : off + len + vs.length ≤ xs.length) :
    ((writeAt xs (off + len) vs).drop off).take (len + vs.length)
      = (xs.drop off).take len ++ vs := by
  unfold writeAt
  have h1 : (xs.take (off + len)).length = off + len := by
    simp only [List.length_take]; omega
  rw [List.append_assoc, List.drop_append_of_le_length (by omega)]
  have h2 : ((xs.take (off + len)).drop off).length = len := by
    simp only [List.length_drop, h1]; omega
  rw [← List.append_assoc, List.take_append_of_le_length (by simp only [List.length_append, h2]; omega)]
  rw [List.take_of_length_le (by simp only [List.length_append, h2]; omega)]
  rw [List.take_drop]

theorem goAppend_read {α : Type} [Inhabited α] (g : Nat → Nat → Nat) (h : Heap α) (s : Slice)
    (vs : List α) (hwf : s.WF h) :
    (goAppend g h s vs).2.read (goAppend g h s vs).1 = s.read h ++ vs := by
  obtain ⟨h1, h2, h3⟩ := hwf
  unfold goAppend
  dsimp only
  split_ifs with hc
  · simp only [Slice.read, Heap.array_set_same h s.arr _ h1]
    exact writeAt_read _ _ _ _ (by omega)
  · simp only [Slice.read, Heap.array_append_new, List.drop_zero]
    have hl : (List.take s.len (List.drop s.off (Heap.array h s.arr))).length = s.len := by
      simp only [List.length_take, List.length_drop]; omega
    rw [List.take_append_of_le_length (by simp only [List.length_append, hl]; omega)]
    rw [List.take_of_length_le (by simp only [List.length_append, hl]; omega)]

theorem goAppend_WF {α : Type} [Inhabited α] (g : Nat → Nat → Nat) (h : Heap α) (s : Slice)
    (vs : List α) (hwf : s.WF h) :
    (goAppend g h s vs).2.WF (goAppend g h s vs).1 := by
  have hlen := Slice.read_length s h hwf
  obtain ⟨h1, h2, h3⟩ := hwf
  unfold goAppend
  dsimp only
  split_ifs with hc
  · refine ⟨by simpa using h1, hc, ?_⟩
    simp only [Heap.array_set_same h s.arr _ h1]
    rw [writeAt_length _ _ _ (by omega)]
    exact h3
  · refine ⟨by simp, le_max_left _ _, ?_⟩
    simp only [Heap.array_append_new, List.length_append, List.length_replicate, hlen]
    omega

/-! ## `consume` -/

theorem lookup_mapAssign_same {β : Type} (d : List (String × β)) (k : String) (x : β) :
    (mapAssign d k x).lookup k = some x := by
  induction d with
  | nil => simp [mapAssign, List.lookup]
  | cons kv rest ih =>
    obtain ⟨k1, x1⟩ := kv
    unfold mapAssign
    by_cases h : k1 = k
    · simp [h, List.lookup]
    · have h2 : (k == k1) = false := by simpa using fun e => h e.symm
      simp [h, List.lookup, h2, ih]

theorem lookup_mapAssign_other {β : Type} (d : List (String × β)) (k k2 : String) (x : β)
    (hne : k2 ≠ k) : (mapAssign d k x).lookup k2 = d.lookup k2 := by
  induction d with
  | nil =>
    have h2 : (k2 == k) = false := by simpa using hne
    simp [mapAssign, List.lookup, h2]
  | cons kv rest ih =>
    obtain ⟨k1, x1⟩ := kv
    unfold mapAssign
    by_cases h : k1 = k
    · have h2 : (k2 == k) = false := by simpa using hne
      have h3 : (k2 == k1) = false := by rw [h]; exact h2
      simp [h, List.lookup, h2]
    · by_cases h4 : k2 = k1
      · simp [h, List.lookup, h4]
      · have h5 : (k2 == k1) = false := by simpa using h4
        simp [h, List.lookup, h5, ih]

theorem consumeLoop_spec (source : Source) (m : List String) (names : List String) :
    ∀ (i : Nat) (d : List (String × Value)),
      (∀ j v, names[j]? = some v → v ≠ "" →
        ∃ mi x, m[i + j]? = some mi ∧ source.cast v mi = some x) →
      ∃ d2, consumeLoop source m i names d = some d2 ∧
        (∀ k, (k = "" ∨ k ∉ names) → d2.lookup k = d.lookup k) ∧
        (∀ j k, names[j]? = some k → k ≠ "" → (∀ j2, j < j2 → names[j2]? ≠ some k) →
          ∃ mi, m[i + j]? = some mi ∧ d2.lookup k = source.cast k mi) := by
  induction names with
  | nil =>
    intro i d _
    exact ⟨d, rfl, fun _ _ => rfl, fun j k hj => by simp at hj⟩
  | cons v names ih =>
    intro i d hok
    have hok2 : ∀ j w, names[j]? = some w → w ≠ "" →
        ∃ mi x, m[i + 1 + j]? = some mi ∧ source.cast w mi = some x := by
      intro j w hj hw
      have := hok (j + 1) w (by simpa using hj) hw
      rwa [show i + (j + 1) = i + 1 + j by omega] at this
    by_cases hv : v = ""
    · obtain ⟨d2, hd2, hA, hB⟩ := ih (i + 1) d hok2
      refine ⟨d2, ?_, ?_, ?_⟩
      · unfold consumeLoop
        simp only [hv, ne_eq, not_true_eq_false, if_false]
        exact hd2
      · intro k hk
        apply hA
        rcases hk with hk | hk
        · exact Or.inl hk
        · exact Or.inr (fun hmem => hk (List.mem_cons_of_mem _ hmem))
      · intro j k hj hk hlast
        cases j with
        | zero =>
          simp at hj
          exact absurd (hj ▸ hv) hk
        | succ j0 =>
          have := hB j0 k (by simpa using hj) hk (fun j2 hj2 => by
            have := hlast (j2 + 1) (by omega)
            simpa using this)
          rwa [show i + 1 + j0 = i + (j0 + 1) by omega] at this
    · obtain ⟨mi, x, hmi, hx⟩ := hok 0 v (by simp) hv
      obtain ⟨d2, hd2, hA, hB⟩ := ih (i + 1) (mapAssign d v x) hok2
      refine ⟨d2, ?_, ?_, ?_⟩
      · unfold consumeLoop
        simp only [Nat.add_zero] at hmi
        simp only [ne_eq, hv, not_false_eq_true, if_true, hmi, hx]
        exact hd2
      · intro k hk
        have hkv : k ≠ v := by
          rcases hk with hk | hk
          · intro e; exact hv (e ▸ hk)
          · intro e; exact hk (e ▸ List.mem_cons_self _ _)
        have hk2 : k = "" ∨ k ∉ names := by
          rcases hk with hk | hk
          · exact Or.inl hk
          · exact Or.inr (fun hmem => hk (List.mem_cons_of_mem _ hmem))
        rw [hA k hk2, lookup_mapAssign_other d v k x hkv]
      · intro j k hj hk hlast
        cases j with
        | zero =>
          simp at hj
          subst hj
          have hnot : v ∉ names := by
            intro hmem
            obtain ⟨n, hn, hget⟩ := List.getElem_of_mem hmem
            have := hlast (n + 1) (by omega)
            simp [List.getElem?_eq_getElem hn, hget] at this
          refine ⟨mi, hmi, ?_⟩
          rw [hA v (Or.inr hnot), lookup_mapAssign_same, hx]
        | succ j0 =>
          have := hB j0 k (by simpa using hj) hk (fun j2 hj2 => by
            have := hlast (j2 + 1) (by omega)
            simpa using this)
          rwa [show i + 1 + j0 = i + (j0 + 1) by omega] at this

theorem exists_last_index (names : List String) (k : String) (h : k ∈ names) :
    ∃ j : Nat, names[j]? = some k ∧ ∀ j2 : Nat, j < j2 → names[j2]? ≠ some k := by
  induction names with
  | nil => simp at h
  | cons v names ih =>
    by_cases hmem : k ∈ names
    · obtain ⟨j, hj, hlast⟩ := ih hmem
      refine ⟨j + 1, by simpa using hj, ?_⟩
      intro j2 hj2
      cases j2 with
      | zero => omega
      | succ j3 =>
        have := hlast j3 (by omega)
        simpa using this
    · have hkv : k = v := by
        rcases List.mem_cons.1 h with h1 | h1
        · exact h1
        · exact absurd h1 hmem
      subst hkv
      refine ⟨0, by simp, ?_⟩
      intro j2 hj2
      cases j2 with
      | zero => omega
      | succ j3 =>
        intro hget
        apply hmem
        have : names[j3]? = some k := by simpa using hget
        exact (List.mem_iff_getElem?.2 ⟨j3, this⟩)


/-- C3, as stated, fails when two groups bear one name: the pattern
`(?P<a>.)(?P<a>.)` on the line `xy` captures `x` in group 1 and `y` in
group 2, and the data of the new Event maps `a` to the text of group 2 only,
not to `source.cast("a", "x")` for group 1. -/
theorem consume_duplicate_group_name :
    dupSource.regexpNames[1]? = some "a" ∧
    dupSource.regexp "xy" = some ["xy", "x", "y"] ∧
    (dupSource.consume growDouble "now" { Text := "xy" } (Prog.init CubeEntry)).map Prog.buffer
      = some [{ Type_ := "dup", Time := "now", Data := [("a", Value.str "y")] }] ∧
    ([("a", Value.str "y")] : List (String × Value)).lookup "a" ≠ dupSource.cast "a" "x" := by
  decide

/-- C3, amended: when the pattern does not match the line, `consume` leaves
the buffer unchanged; when it matches and the cast of every named group
returns, the buffer after `consume` is the old buffer followed by exactly one
new Event whose type is the label of the source and whose data has as keys
exactly the non-empty group names, each mapped to `source.cast` of the name
and the text captured by the last group that bears the name. -/
theorem consume_spec (g : Nat → Nat → Nat) (source : Source) (now : String) (line : Line)
    (p : Prog CubeEntry) (hwf : p.cubeEntries.WF p.heap) :
    (source.regexp line.Text = none → source.consume g now line p = some p) ∧
    (∀ m, source.regexp line.Text = some m →
      (∀ (j : Nat) (v : String), source.regexpNames[j]? = some v → v ≠ "" →
        ∃ mi x, m[j]? = some mi ∧ source.cast v mi = some x) →
      ∃ e p2, source.consume g now line p = some p2 ∧
        p2.buffer = p.buffer ++ [e] ∧ p2.cubeEntries.WF p2.heap ∧
        e.Type_ = source.Type_ ∧ e.Time = now ∧
        (∀ k, (e.Data.lookup k).isSome ↔ (k ≠ "" ∧ k ∈ source.regexpNames)) ∧
        (∀ (j : Nat) (k : String), source.regexpNames[j]? = some k → k ≠ "" →
          (∀ j2 : Nat, j < j2 → source.regexpNames[j2]? ≠ some k) →
          ∃ mi, m[j]? = some mi ∧ e.Data.lookup k = source.cast k mi)) := by
  refine ⟨?_, ?_⟩
  · intro h
    simp [Source.consume, h]
  · intro m hm hok
    obtain ⟨d2, hd2, hA, hB⟩ := consumeLoop_spec source m source.regexpNames 0 []
      (by intro j v hj hv; simpa using hok j v hj hv)
    refine ⟨{ Type_ := source.Type_, Time := now, Data := d2 },
      { heap := (goAppend g p.heap p.cubeEntries
          [{ Type_ := source.Type_, Time := now, Data := d2 }]).1,
        cubeEntries := (goAppend g p.heap p.cubeEntries
          [{ Type_ := source.Type_, Time := now, Data := d2 }]).2 },
      ?_, ?_, ?_, rfl, rfl, ?_, ?_⟩
    · simp only [Source.consume, hm, hd2]
    · exact goAppend_read g p.heap p.cubeEntries _ hwf
    · exact goAppend_WF g p.heap p.cubeEntries _ hwf
    · intro k
      constructor
      · intro hsome
        by_contra hcon
        have hk : k = "" ∨ k ∉ source.regexpNames := by
          by_cases h0 : k = ""
          · exact Or.inl h0
          · exact Or.inr (fun hmem => hcon ⟨h0, hmem⟩)
        have := hA k hk
        simp only [List.lookup] at this
        simp [this] at hsome
      · rintro ⟨h0, hmem⟩
        obtain ⟨j, hj, hlast⟩ := exists_last_index _ k hmem
        obtain ⟨mi, hmi, hlook⟩ := hB j k hj h0 hlast
        obtain ⟨mi2, x, hmi2, hx⟩ := hok j k hj h0
        simp only [Nat.zero_add] at hmi
        rw [hmi] at hmi2
        cases hmi2
        show (List.lookup k d2).isSome
        rw [hlook, hx]
        rfl
    · intro j k hj hk hlast
      have := hB j k hj hk hlast
      simpa using this

/-- C3, amended, at the second case of `consumeTests`. -/
theorem consume_spec_witness :
    (Prog.init CubeEntry).cubeEntries.WF (Prog.init CubeEntry).heap ∧
    ∃ e p2, helloSource.consume growDouble "now" { Text := "Hello,2" } (Prog.init CubeEntry)
        = some p2 ∧
      p2.buffer = (Prog.init CubeEntry).buffer ++ [e] ∧ p2.cubeEntries.WF p2.heap ∧
      e.Type_ = helloSource.Type_ ∧ e.Time = "now" ∧
      (∀ k, (e.Data.lookup k).isSome ↔ (k ≠ "" ∧ k ∈ helloSource.regexpNames)) ∧
      (∀ (j : Nat) (k : String), helloSource.regexpNames[j]? = some k → k ≠ "" →
        (∀ j2 : Nat, j < j2 → helloSource.regexpNames[j2]? ≠ some k) →
        ∃ mi, (["Hello,2", "Hello", "2"] : List String)[j]? = some mi ∧
          e.Data.lookup k = helloSource.cast k mi) :=
  ⟨by decide,
    (consume_spec growDouble helloSource "now" { Text := "Hello,2" } (Prog.init CubeEntry)
      (by decide)).2 ["Hello,2", "Hello", "2"] (by decide) (by
        intro j v hj hv
        match j, hj with
        | 0, hj => simp [helloSource] at hj; exact absurd hj.symm hv
        | 1, hj =>
          simp [helloSource] at hj; subst hj
          exact ⟨"Hello", Value.str "Hello", by decide, by decide⟩
        | 2, hj =>
          simp [helloSource] at hj; subst hj
          exact ⟨"2", Value.int 2, by decide, by decide⟩
        | n + 3, hj => simp [helloSource] at hj)⟩

/-! ## The partition step -/

theorem partCount_bounds (n size : Nat) (hs : 1 ≤ size) (hn : 1 ≤ n) :
    1 ≤ partCount n size ∧ (partCount n size - 1) * size < n ∧ n ≤ partCount n size * size := by
  unfold partCount
  have h1 : size * ((n + size - 1) / size) ≤ n + size - 1 := Nat.mul_div_le _ _
  have h2 : n + size - 1 < size * ((n + size - 1) / size) + size := Nat.lt_mul_div_succ _ (by omega)
  have h3 : 1 ≤ (n + size - 1) / size := by
    rw [Nat.one_le_div_iff (by omega)]; omega
  generalize (n + size - 1) / size = c at *
  obtain ⟨c0, rfl⟩ : ∃ c0, c = c0 + 1 := ⟨c - 1, by omega⟩
  refine ⟨by omega, ?_, ?_⟩
  · simp only [Nat.add_sub_cancel]
    rw [Nat.mul_add, Nat.mul_one] at h1
    rw [Nat.mul_comm]
    omega
  · rw [Nat.mul_comm]
    omega

theorem partCount_zero (size : Nat) (hs : 1 ≤ size) : partCount 0 size = 0 := by
  unfold partCount
  rw [Nat.zero_add]
  exact Nat.div_eq_of_lt (by omega)

theorem partCount_eq_ceil (n size : Nat) (hs : 1 ≤ size) :
    partCount n size = ⌈(n : ℚ) / (size : ℚ)⌉₊ := by
  have hsq : (0 : ℚ) < (size : ℚ) := by exact_mod_cast hs
  rcases Nat.eq_zero_or_pos n with h0 | hpos
  · subst h0
    simp [partCount_zero size hs]
  · obtain ⟨h1, h2, h3⟩ := partCount_bounds n size hs hpos
    symm
    rw [Nat.ceil_eq_iff (by omega)]
    constructor
    · rw [lt_div_iff₀ hsq]
      exact_mod_cast h2
    · rw [div_le_iff₀ hsq]
      exact_mod_cast h3

theorem partLoop_eq (ce : Slice) (size : Nat) (hcap : ce.len ≤ ce.cap) :
    ∀ (todo i : Nat), (∀ j, j < i + todo → j * size ≤ ce.len) →
      partLoop ce size i todo = some ((List.range' i todo).map (partAt ce size)) := by
  intro todo
  induction todo with
  | zero => intro i _; rfl
  | succ t ih =>
    intro i hb
    have hi : i * size ≤ ce.len := hb i (by omega)
    have hrest := ih (i + 1) (fun j hj => hb j (by omega))
    unfold partLoop
    dsimp only
    rw [hrest]
    have hpart : (if i * size + size > ce.len then ce.reslice (i * size) ce.len
        else ce.reslice (i * size) (i * size + size)) = some (partAt ce size i) := by
      split_ifs with hgt
      · unfold Slice.reslice
        rw [if_pos ⟨hi, hcap⟩]
        simp only [partAt, Option.some.injEq, Slice.mk.injEq, true_and, and_true]
        exact (Nat.min_eq_right (by omega)).symm
      · unfold Slice.reslice
        rw [if_pos ⟨by omega, by omega⟩]
        simp only [partAt, Option.some.injEq, Slice.mk.injEq, true_and, and_true]
        rw [Nat.min_eq_left (by omega)]
        omega
    rw [hpart]
    simp [List.range'_succ]

theorem partAt_read {α : Type} (ce : Slice) (h : Heap α) (size j : Nat) :
    (partAt ce size j).read h = ((ce.read h).drop (j * size)).take size := by
  simp only [Slice.read, partAt, List.drop_take, List.take_take, List.drop_drop]

theorem chunks_flatten {α : Type} (L : List α) (size : Nat) :
    ∀ (todo i : Nat), L.length ≤ (i + todo) * size →
      ((List.range' i todo).map (fun j => (L.drop (j * size)).take size)).flatten
        = L.drop (i * size) := by
  intro todo
  induction todo with
  | zero =>
    intro i hi
    simp only [List.range'_zero, List.map_nil, List.flatten_nil]
    exact (List.drop_of_length_le (by simpa using hi)).symm
  | succ t ih =>
    intro i hi
    have := ih (i + 1) (by rw [show i + 1 + t = i + (t + 1) by omega]; exact hi)
    simp only [List.range'_succ, List.map_cons, List.flatten_cons, this]
    rw [show (i + 1) * size = i * size + size by rw [Nat.add_mul]; omega, ← List.drop_drop]
    exact List.take_append_drop _ _

theorem partAt_WF {α : Type} (ce : Slice) (h : Heap α) (size j : Nat) (hwf : ce.WF h)
    (hj : j * size ≤ ce.len) : (partAt ce size j).WF h := by
  obtain ⟨h1, h2, h3⟩ := hwf
  refine ⟨h1, ?_, ?_⟩
  · simp only [partAt]
    exact le_trans (Nat.min_le_right _ _) (by omega)
  · simp only [partAt]
    omega

theorem partitionStep_nonempty {α : Type} (size : Nat) (p : Prog α) (hB : 1 ≤ size)
    (hwf : p.cubeEntries.WF p.heap) (hne : p.cubeEntries.len ≠ 0) :
    partitionStep size p = some
      ((List.range' 0 (partCount p.cubeEntries.len size)).map (partAt p.cubeEntries size),
        { p with cubeEntries := { p.cubeEntries with len := 0 } }) := by
  obtain ⟨hc1, hc2, hc3⟩ := partCount_bounds p.cubeEntries.len size hB (by omega)
  have hloop := partLoop_eq p.cubeEntries size hwf.2.1 (partCount p.cubeEntries.len size) 0
    (by
      intro j hj
      have : j * size ≤ (partCount p.cubeEntries.len size - 1) * size :=
        Nat.mul_le_mul_right _ (by omega)
      omega)
  unfold partitionStep
  rw [if_neg hne, hloop]
  simp [Slice.reslice]

/-- C1: for a batch size of at least 1 the partition step of
`partitionBatchesToCube` produces `ceil(N/B)` batches from a buffer of `N`
events; none when `N = 0`, the state being unchanged; the batches are
consecutive windows of the buffer's array whose contents, concatenated in
order, are the buffer, so their lengths sum to `N`; every batch holds between
1 and `B` events and every batch but the last exactly `B`.  The step leaves
the heap as it was and only sets the length of `cubeEntries` to 0, so the
batches hold these contents in the state the step returns. -/
theorem partitionStep_spec {α : Type} (size : Nat) (p : Prog α) (hB : 1 ≤ size)
    (hwf : p.cubeEntries.WF p.heap) :
    ∃ parts p2, partitionStep size p = some (parts, p2) ∧
      parts.length = ⌈(p.buffer.length : ℚ) / (size : ℚ)⌉₊ ∧
      (p.buffer.length = 0 → parts = [] ∧ p2 = p) ∧
      p2.heap = p.heap ∧ p2.cubeEntries = { p.cubeEntries with len := 0 } ∧
      (parts.map (fun s => s.read p2.heap)).flatten = p.buffer ∧
      (parts.map (fun s => s.read p.heap)).flatten = p.buffer ∧
      (parts.map Slice.len).sum = p.buffer.length ∧
      (∀ (k : Nat) (part : Slice), parts[k]? = some part →
        part.arr = p.cubeEntries.arr ∧ part.off = p.cubeEntries.off + k * size ∧
        part.read p.heap = (p.buffer.drop (k * size)).take size ∧
        part.read p2.heap = (p.buffer.drop (k * size)).take size ∧
        1 ≤ part.len ∧ part.len ≤ size ∧ (k + 1 < parts.length → part.len = size)) := by
  have hlen : p.buffer.length = p.cubeEntries.len := Slice.read_length _ _ hwf
  by_cases hne : p.cubeEntries.len = 0
  · have hb : p.buffer = [] := List.eq_nil_of_length_eq_zero (by omega)
    refine ⟨[], p, by simp [partitionStep, hne], ?_, fun _ => ⟨rfl, rfl⟩, rfl, ?_, ?_, ?_,
      ?_, ?_⟩
    · simp [hlen, hne]
    · rw [← hne]
    · simp [hb]
    · simp [hb]
    · simp [hlen, hne]
    · intro k part hk
      simp at hk
  · obtain ⟨hc1, hc2, hc3⟩ := partCount_bounds p.cubeEntries.len size hB (by omega)
    have hflat : ((List.range' 0 (partCount p.cubeEntries.len size)).map
        (fun j => (partAt p.cubeEntries size j).read p.heap)).flatten = p.buffer := by
      have := chunks_flatten p.buffer size (partCount p.cubeEntries.len size) 0
        (by rw [hlen]; simpa using hc3)
      simp only [Nat.zero_mul, List.drop_zero] at this
      rw [← this]
      congr 2
      funext j
      exact partAt_read _ _ _ _
    have hidx : ∀ k, k < partCount p.cubeEntries.len size → k * size < p.cubeEntries.len := by
      intro k hk
      have : k * size ≤ (partCount p.cubeEntries.len size - 1) * size :=
        Nat.mul_le_mul_right _ (by omega)
      omega
    have hstep : partitionStep size p = some
        ((List.range' 0 (partCount p.cubeEntries.len size)).map (partAt p.cubeEntries size),
          { p with cubeEntries := { p.cubeEntries with len := 0 } }) := by
      have hloop := partLoop_eq p.cubeEntries size hwf.2.1 (partCount p.cubeEntries.len size) 0
        (fun j hj => le_of_lt (hidx j (by omega)))
      unfold partitionStep
      rw [if_neg hne, hloop]
      simp [Slice.reslice]
    refine ⟨_, _, hstep, ?_, ?_, rfl, rfl, ?_, ?_, ?_, ?_⟩
    · rw [hlen, ← partCount_eq_ceil _ _ hB]
      simp
    · intro h0
      omega
    · rw [List.map_map]
      exact hflat
    · rw [List.map_map]
      exact hflat
    · have hsum : ((List.range' 0 (partCount p.cubeEntries.len size)).map
          (partAt p.cubeEntries size)).map Slice.len
          = (((List.range' 0 (partCount p.cubeEntries.len size)).map
            (fun j => (partAt p.cubeEntries size j).read p.heap))).map List.length := by
        rw [List.map_map, List.map_map]
        apply List.map_congr_left
        intro j hj
        have hj2 : j < partCount p.cubeEntries.len size := by
          have := (List.mem_range'_1.1 hj).2
          omega
        exact (Slice.read_length _ _
          (partAt_WF _ _ _ _ hwf (le_of_lt (hidx j hj2)))).symm
      rw [hsum, ← List.length_flatten, hflat]
    · intro k part hk
      have hk2 : k < partCount p.cubeEntries.len size := by
        have := (List.getElem?_eq_some.1 hk).1
        simpa using this
      have hpart : part = partAt p.cubeEntries size k := by
        rw [List.getElem?_map, List.getElem?_range' _ _ hk2] at hk
        simp at hk
        exact hk.symm
      subst hpart
      have hks := hidx k hk2
      refine ⟨rfl, rfl, partAt_read _ _ _ _, partAt_read _ _ _ _, ?_, ?_, ?_⟩
      · simp only [partAt]
        exact Nat.le_min.2 ⟨hB, by omega⟩
      · simp only [partAt]
        exact Nat.min_le_left _ _
      · intro hk3
        simp only [List.length_map, List.length_range'] at hk3
        have := hidx (k + 1) hk3
        rw [Nat.add_mul] at this
        simp only [partAt]
        exact Nat.min_eq_left (by omega)

/-- C1, at six events and a batch size of 5, the second case of
`batchPartitionTests`. -/
theorem partitionStep_spec_witness :
    1 ≤ 5 ∧ sixEvents.cubeEntries.WF sixEvents.heap ∧
    ∃ parts p2, partitionStep 5 sixEvents = some (parts, p2) ∧
      parts.length = ⌈(sixEvents.buffer.length : ℚ) / ((5 : ℕ) : ℚ)⌉₊ ∧
      (sixEvents.buffer.length = 0 → parts = [] ∧ p2 = sixEvents) ∧
      p2.heap = sixEvents.heap ∧ p2.cubeEntries = { sixEvents.cubeEntries with len := 0 } ∧
      (parts.map (fun s => s.read p2.heap)).flatten = sixEvents.buffer ∧
      (parts.map (fun s => s.read sixEvents.heap)).flatten = sixEvents.buffer ∧
      (parts.map Slice.len).sum = sixEvents.buffer.length ∧
      (∀ (k : Nat) (part : Slice), parts[k]? = some part →
        part.arr = sixEvents.cubeEntries.arr ∧ part.off = sixEvents.cubeEntries.off + k * 5 ∧
        part.read sixEvents.heap = (sixEvents.buffer.drop (k * 5)).take 5 ∧
        part.read p2.heap = (sixEvents.buffer.drop (k * 5)).take 5 ∧
        1 ≤ part.len ∧ part.len ≤ 5 ∧ (k + 1 < parts.length → part.len = 5)) :=
  ⟨by decide, by decide, partitionStep_spec 5 sixEvents (by decide) (by decide)⟩

/-! ## The dispatches of a round -/

/-- C2 fails on the code: two events `a`, `b` are in the buffer, the batch
size is 1, both dispatches fail and the second finishes first.  Its append
writes `b` into cell 0 of the array, which is the cell the first batch still
points to, so the first batch re-appends `b`: the buffer after the round is
`[b, b]` and `a` is lost. -/
theorem partitionBatchesToCube_loses_event :
    ((messageSource.consume growDouble "t1" { Text := "a" } (Prog.init CubeEntry)).bind
      (messageSource.consume growDouble "t2" { Text := "b" })) = some twoEvents ∧
    twoEvents.buffer = [messageEvent "t1" "a", messageEvent "t2" "b"] ∧
    feasibleOrder 2 [1, 0] ∧
    (partitionBatchesToCube growDouble 1 (fun _ => false) [1, 0] twoEvents).map Prog.buffer
      = some [messageEvent "t2" "b", messageEvent "t2" "b"] ∧
    messageEvent "t1" "a" ∉ [messageEvent "t2" "b", messageEvent "t2" "b"] ∧
    (partitionBatchesToCube growDouble 1 (fun _ => false) [0, 1] twoEvents).map Prog.buffer
      = some [messageEvent "t1" "a", messageEvent "t2" "b"] := by
  decide

/-- C9 fails on the code: after the partition step has re-sliced the buffer
to `[0:0]`, the Event that `consume` appends is written into cell 0 of the
same array, so the first batch of the round, which held `a`, now holds the
new Event. -/
theorem consume_overwrites_batch :
    partitionStep 1 twoEvents
      = some ([{ arr := 2, off := 0, len := 1, cap := 2 }, { arr := 2, off := 1, len := 1, cap := 1 }],
          { twoEvents with cubeEntries := { arr := 2, off := 0, len := 0, cap := 2 } }) ∧
    Slice.read { arr := 2, off := 0, len := 1, cap := 2 } twoEvents.heap
      = [messageEvent "t1" "a"] ∧
    (((partitionStep 1 twoEvents).bind fun r =>
        messageSource.consume growDouble "t3" { Text := "c" } r.2).map fun p =>
          Slice.read { arr := 2, off := 0, len := 1, cap := 2 } p.heap)
      = some [messageEvent "t3" "c"] := by
  decide

theorem writeAt_drop {α : Type} (xs : List α) (pos m : Nat) (vs : List α)
    (h1 : pos + vs.length ≤ xs.length) (h2 : pos + vs.length ≤ m) :
    (writeAt xs pos vs).drop m = xs.drop m := by
  unfold writeAt
  have hl : (xs.take pos ++ vs).length = pos + vs.length := by
    simp only [List.length_append, List.length_take]; omega
  rw [List.drop_append_eq_append_drop, List.drop_of_length_le (by omega), List.nil_append, hl,
    List.drop_drop]
  congr 1
  omega

theorem parts_getElem? (ce : Slice) (size c k : Nat) (hk : k < c) :
    ((List.range' 0 c).map (partAt ce size))[k]? = some (partAt ce size k) := by
  rw [List.getElem?_map, List.getElem?_range' _ _ hk]
  simp

theorem RoundInv_step {α : Type} [Inhabited α] (g : Nat → Nat → Nat) (size : Nat)
    (p : Prog α) (sendOk : Nat → Bool) (hwf : p.cubeEntries.WF p.heap) (c k : Nat)
    (hk : k < c) (hks : k * size < p.cubeEntries.len) (q : Prog α)
    (hinv : RoundInv p size sendOk k q) :
    RoundInv p size sendOk (k + 1)
      (completeBatch g ((List.range' 0 c).map (partAt p.cubeEntries size)) sendOk q k) := by
  obtain ⟨i1, i2, i3, i4, i5, i6, i7, i8⟩ := hinv
  obtain ⟨w1, w2, w3⟩ := hwf
  have hflat :
      ((List.range' 0 (k + 1)).map
        (fun j => if sendOk j then [] else (p.buffer.drop (j * size)).take size)).flatten
      = ((List.range' 0 k).map
        (fun j => if sendOk j then [] else (p.buffer.drop (j * size)).take size)).flatten
        ++ (if sendOk k then [] else (p.buffer.drop (k * size)).take size) := by
    rw [List.range'_1_concat]
    simp
  unfold completeBatch
  rw [parts_getElem? _ _ _ _ hk]
  dsimp only
  by_cases hok : sendOk k = true
  · rw [if_pos hok]
    refine ⟨i1, i2, i3, i4, ?_, i6, ?_, ?_⟩
    · rw [Nat.add_mul]; omega
    · have := congrArg (List.drop size) i7
      rw [List.drop_drop, List.drop_drop] at this
      rw [Nat.add_mul, Nat.one_mul, ← Nat.add_assoc]
      exact this
    · rw [hflat, i8]
      simp [hok]
  · rw [if_neg hok]
    have hsame : (partAt p.cubeEntries size k).read q.heap
        = (partAt p.cubeEntries size k).read p.heap := by
      simp only [Slice.read, partAt]
      rw [i7]
    have hvs : (partAt p.cubeEntries size k).read q.heap
        = (p.buffer.drop (k * size)).take size :=
      hsame.trans (partAt_read _ _ _ _)
    have hvl : ((partAt p.cubeEntries size k).read q.heap).length
        = min size (p.cubeEntries.len - k * size) := by
      rw [hsame]
      exact Slice.read_length _ _ (partAt_WF _ _ _ _ ⟨w1, w2, w3⟩ (le_of_lt hks))
    have hl1 : ((partAt p.cubeEntries size k).read q.heap).length ≤ size := by
      rw [hvl]; exact Nat.min_le_left _ _
    have hl2 : ((partAt p.cubeEntries size k).read q.heap).length
        ≤ p.cubeEntries.len - k * size := by
      rw [hvl]; exact Nat.min_le_right _ _
    have hqwf : q.cubeEntries.WF q.heap := by
      refine ⟨by rw [i1, i2]; exact w1, by rw [i4]; omega, ?_⟩
      rw [i2, i3, i4, i6]; exact w3
    have hread := goAppend_read g q.heap q.cubeEntries
      ((partAt p.cubeEntries size k).read q.heap) hqwf
    have hfit : q.cubeEntries.len + ((partAt p.cubeEntries size k).read q.heap).length
        ≤ q.cubeEntries.cap := by
      rw [i4]; omega
    unfold retryBatch
    unfold goAppend at hread ⊢
    dsimp only at hread ⊢
    rw [if_pos hfit] at hread ⊢
    dsimp only at hread ⊢
    refine ⟨?_, i2, i3, i4, ?_, ?_, ?_, ?_⟩
    · rw [List.length_set]; exact i1
    · show q.cubeEntries.len + ((partAt p.cubeEntries size k).read q.heap).length
        ≤ (k + 1) * size
      rw [Nat.add_mul]; omega
    · rw [i2, Heap.array_set_same _ _ _ (by rw [i1]; exact w1),
        writeAt_length _ _ _ (by rw [i6, i3]; omega)]
      exact i6
    · rw [i2, Heap.array_set_same _ _ _ (by rw [i1]; exact w1),
        writeAt_drop _ _ _ _ (by rw [i6, i3]; omega)
          (by rw [i3, Nat.add_mul]; omega)]
      have := congrArg (List.drop size) i7
      rw [List.drop_drop, List.drop_drop] at this
      rw [Nat.add_mul, Nat.one_mul, ← Nat.add_assoc]
      exact this
    · show Slice.read _ _ = _
      rw [hread, hflat, hvs]
      have : q.cubeEntries.read q.heap = q.buffer := rfl
      rw [this, i8]
      simp [hok]

theorem RoundInv_fold {α : Type} [Inhabited α] (g : Nat → Nat → Nat) (size : Nat)
    (p : Prog α) (sendOk : Nat → Bool) (hwf : p.cubeEntries.WF p.heap) (c : Nat)
    (hc : ∀ k, k < c → k * size < p.cubeEntries.len) :
    ∀ (todo k : Nat) (q : Prog α), k + todo ≤ c → RoundInv p size sendOk k q →
      RoundInv p size sendOk (k + todo)
        ((List.range' k todo).foldl
          (completeBatch g ((List.range' 0 c).map (partAt p.cubeEntries size)) sendOk) q) := by
  intro todo
  induction todo with
  | zero => intro k q _ hinv; exact hinv
  | succ t ih =>
    intro k q hle hinv
    have hstep := RoundInv_step g size p sendOk hwf c k (by omega) (hc k (by omega)) q hinv
    have := ih (k + 1) _ (by omega) hstep
    rw [show k + 1 + t = k + (t + 1) by omega] at this
    simpa [List.range'_succ] using this

theorem partitionStep_buffer_nil {α : Type} (size : Nat) (p : Prog α) (hB : 1 ≤ size)
    (hwf : p.cubeEntries.WF p.heap) :
    ∃ parts p2, partitionStep size p = some (parts, p2) ∧ p2.buffer = [] := by
  by_cases hne : p.cubeEntries.len = 0
  · refine ⟨[], p, by simp [partitionStep, hne], ?_⟩
    exact List.eq_nil_of_length_eq_zero ((Slice.read_length _ _ hwf).trans hne)
  · exact ⟨_, _, partitionStep_nonempty size p hB hwf hne, by simp [Prog.buffer, Slice.read]⟩

/-- Rounds without a failure: when every dispatch of the round succeeds
the buffer after `partitionBatchesToCube` is empty, whatever the order. -/
theorem partitionBatchesToCube_all_succeed {α : Type} [Inhabited α] (g : Nat → Nat → Nat)
    (size : Nat) (p : Prog α) (sendOk : Nat → Bool) (order : List Nat) (hB : 1 ≤ size)
    (hwf : p.cubeEntries.WF p.heap) (hok : ∀ i, sendOk i = true) :
    ∃ q, partitionBatchesToCube g size sendOk order p = some q ∧ q.buffer = [] := by
  obtain ⟨parts, p2, hstep, hnil⟩ := partitionStep_buffer_nil size p hB hwf
  have hfold : ∀ (order : List Nat) (q : Prog α),
      order.foldl (completeBatch g parts sendOk) q = q := by
    intro order
    induction order with
    | nil => intro q; rfl
    | cons i rest ih =>
      intro q
      have : completeBatch g parts sendOk q i = q := by
        unfold completeBatch
        cases parts[i]? with
        | none => rfl
        | some part => simp [hok i]
      rw [List.foldl_cons, this, ih]
  refine ⟨p2, ?_, hnil⟩
  simp [partitionBatchesToCube, hstep, dispatch, hfold]

/-- Rounds that finish in index order: when the dispatches of the round finish in
index order, the buffer after `partitionBatchesToCube` is the contents of the
failed batches, in order; so it is the buffer before the round when every
dispatch fails. -/
theorem partitionBatchesToCube_in_order {α : Type} [Inhabited α] (g : Nat → Nat → Nat)
    (size : Nat) (p : Prog α) (sendOk : Nat → Bool) (hB : 1 ≤ size)
    (hwf : p.cubeEntries.WF p.heap) :
    ∃ q, partitionBatchesToCube g size sendOk
        (List.range (partCount p.cubeEntries.len size)) p = some q ∧
      q.buffer = ((List.range (partCount p.cubeEntries.len size)).map
        (fun j => if sendOk j then [] else (p.buffer.drop (j * size)).take size)).flatten ∧
      ((∀ i, sendOk i = false) → q.buffer = p.buffer) := by
  have hlen : p.buffer.length = p.cubeEntries.len := Slice.read_length _ _ hwf
  have hall : ∀ (q : Prog α),
      q.buffer = ((List.range (partCount p.cubeEntries.len size)).map
        (fun j => if sendOk j then [] else (p.buffer.drop (j * size)).take size)).flatten →
      (∀ i, sendOk i = false) → q.buffer = p.buffer := by
    intro q hq hfail
    rw [hq, List.range_eq_range']
    have hbound : p.buffer.length ≤ (0 + partCount p.cubeEntries.len size) * size := by
      rw [hlen, Nat.zero_add]
      by_cases hne : p.cubeEntries.len = 0
      · omega
      · exact (partCount_bounds _ _ hB (by omega)).2.2
    have := chunks_flatten p.buffer size (partCount p.cubeEntries.len size) 0 hbound
    simp only [Nat.zero_mul, List.drop_zero] at this
    simpa [hfail] using this
  by_cases hne : p.cubeEntries.len = 0
  · have hb : p.buffer = [] := List.eq_nil_of_length_eq_zero (by omega)
    have hq : p.buffer = ((List.range (partCount p.cubeEntries.len size)).map
        (fun j => if sendOk j then [] else (p.buffer.drop (j * size)).take size)).flatten := by
      rw [hne, partCount_zero size hB, hb]; rfl
    refine ⟨p, ?_, hq, hall p hq⟩
    simp [partitionBatchesToCube, partitionStep, hne, partCount_zero size hB, dispatch]
  · obtain ⟨hc1, hc2, hc3⟩ := partCount_bounds p.cubeEntries.len size hB (by omega)
    have hidx : ∀ k, k < partCount p.cubeEntries.len size → k * size < p.cubeEntries.len := by
      intro k hk
      have : k * size ≤ (partCount p.cubeEntries.len size - 1) * size :=
        Nat.mul_le_mul_right _ (by omega)
      omega
    have h0 : RoundInv p size sendOk 0
        { p with cubeEntries := { p.cubeEntries with len := 0 } } := by
      refine ⟨rfl, rfl, rfl, rfl, by simp, rfl, rfl, ?_⟩
      simp [Prog.buffer, Slice.read]
    have hfold := RoundInv_fold g size p sendOk hwf (partCount p.cubeEntries.len size) hidx
      (partCount p.cubeEntries.len size) 0 _ (by omega) h0
    rw [Nat.zero_add] at hfold
    have hq := hfold.2.2.2.2.2.2.2
    rw [← List.range_eq_range'] at hq hfold
    refine ⟨_, ?_, hq, hall _ hq⟩
    simp only [partitionBatchesToCube, partitionStep_nonempty size p hB hwf hne, dispatch]
    rw [List.range_eq_range']

/-- The aliasing behind the failures of a round, in general: after the
partition step of a non-empty buffer, an append of one Event to the buffer
replaces the first Event of the first batch. -/
theorem partition_then_append_overwrites {α : Type} [Inhabited α] (g : Nat → Nat → Nat)
    (size : Nat) (p : Prog α) (e : α) (hB : 1 ≤ size) (hwf : p.cubeEntries.WF p.heap)
    (hne : p.cubeEntries.len ≠ 0) :
    ∃ parts p1, partitionStep size p = some (partAt p.cubeEntries size 0 :: parts, p1) ∧
      (partAt p.cubeEntries size 0).read (goAppend g p1.heap p1.cubeEntries [e]).1
        = e :: ((partAt p.cubeEntries size 0).read p.heap).tail := by
  obtain ⟨hc1, _, _⟩ := partCount_bounds p.cubeEntries.len size hB (by omega)
  obtain ⟨w1, w2, w3⟩ := hwf
  obtain ⟨c0, hc0⟩ : ∃ c0, partCount p.cubeEntries.len size = c0 + 1 :=
    ⟨partCount p.cubeEntries.len size - 1, by omega⟩
  refine ⟨(List.range' 1 c0).map (partAt p.cubeEntries size),
    { p with cubeEntries := { p.cubeEntries with len := 0 } }, ?_, ?_⟩
  · rw [partitionStep_nonempty size p hB ⟨w1, w2, w3⟩ hne, hc0]
    simp [List.range'_succ]
  · obtain ⟨l0, hl0⟩ : ∃ l0, min size p.cubeEntries.len = l0 + 1 :=
      ⟨min size p.cubeEntries.len - 1, by
        have : 1 ≤ min size p.cubeEntries.len := Nat.le_min.2 ⟨hB, by omega⟩
        omega⟩
    have hoff : p.cubeEntries.off < (p.heap.array p.cubeEntries.arr).length := by omega
    unfold goAppend
    dsimp only
    rw [if_pos (by simp only [List.length_singleton]; omega)]
    simp only [Slice.read, partAt, Heap.array_set_same _ _ _ w1, Nat.zero_mul,
      Nat.add_zero, Nat.sub_zero, writeAt, List.length_singleton, hl0]
    rw [List.append_assoc, List.drop_append_of_le_length (by simp only [List.length_take]; omega),
      List.drop_of_length_le (by simp only [List.length_take]; omega), List.nil_append,
      List.drop_eq_getElem_cons hoff]
    simp only [List.singleton_append, List.take_succ_cons, List.tail_cons]

/-- The host cast panics on every string with fewer than two labels. -/
theorem castHost_lt_two_labels (v : String) (h : (strings.Split v '.').length < 2) :
    castHost v = none := by
  unfold castHost
  have : goSlice (strings.Split v '.') (((strings.Split v '.').length : Int) - 2)
      ((strings.Split v '.').length : Int) = none := by
    unfold goSlice
    rw [if_neg (by omega)]
  simp only [this]

